import Mathlib

/-!
# Verification of the topa-survey pairing core

Shallow embedding of the tournament scheduler and its companions from
`src/frontend/src/App.tsx`: the deterministic PRNG utilities (`hash32`,
`mulberry32`, `stableShuffle`), the tie-resolution policy
(`resolveTiePreferred`), the pairing scheduler (`nextPair`), the history
reconciliation (`mergeHistory`) and the vote-identity builder (`makeVoteId`).

JavaScript 32-bit integer arithmetic (`Math.imul`, `^`, `>>>`, `|`) is
modelled on `Nat` with explicit reduction modulo `2 ^ 32`; a JS number used
as an unsigned 32-bit quantity is represented by its value mod `2 ^ 32`,
which determines every bitwise operation the source performs.  The floating
division `t / 4294967296` feeding `Math.floor(rnd() * n)` is modelled by the
exact integer computation `t * n / 2 ^ 32`, and the comparison
`rnd() < 0.5` by `t < 2 ^ 31`; both are exact for the magnitudes involved.
Strings are Lean `String`s; `charCodeAt` is `Char.toNat` (the identifiers in
play are ASCII, where UTF-16 code units and code points agree), and JS
number-to-string interpolation of a natural number is the decimal rendering
`natToString`.
-/

/-- `2 ^ 32`, the modulus of all JS 32-bit bitwise arithmetic. -/
def U32 : Nat := 4294967296

/-- FNV-1a style string hash from the source (`hash32`): accumulator starts
at 2166136261; for each UTF-16 code unit XOR then multiply by 16777619,
everything mod `2 ^ 32`. -/
def hash32 (s : String) : Nat :=
  s.data.foldl (fun h c => (Nat.xor h c.toNat) * 16777619 % U32) 2166136261

/-- One step of the source's `mulberry32` generator: given the current
state (mod `2 ^ 32`) return the new state and the 32-bit output `t` whose
real-number value is `t / 2 ^ 32`. -/
def mulberry32Next (seed : Nat) : Nat × Nat :=
  let seed1 := (seed + 0x6d2b79f5) % U32
  let t1 := (Nat.xor seed1 (seed1 >>> 15)) * (seed1 ||| 1) % U32
  let t2 := Nat.xor t1 ((t1 + (Nat.xor t1 (t1 >>> 7)) * (t1 ||| 61) % U32) % U32)
  (seed1, Nat.xor t2 (t2 >>> 14))

/-- Swap the entries at positions `i` and `j` of a list, the model of the
array swap `[a[i], a[j]] = [a[j], a[i]]`; out-of-range indices leave the
list unchanged (they never occur in the source's loop). -/
def listSwap (l : List α) (i j : Nat) : List α :=
  match l.get? i, l.get? j with
  | some x, some y => (l.set i y).set j x
  | _, _ => l

/-- `downFrom k = [k, k-1, ..., 1]`: the index sequence of the source's
Fisher-Yates loop `for (let i = a.length - 1; i > 0; i--)`. -/
def downFrom : Nat → List Nat
  | 0 => []
  | k + 1 => (k + 1) :: downFrom k

/-- One Fisher-Yates step: draw `t`, swap position `i` with
`j = floor(rnd() * (i+1)) = t * (i+1) / 2^32`. -/
def shuffleStep (st : List α × Nat) (i : Nat) : List α × Nat :=
  let (a, seed) := st
  let (seed1, t) := mulberry32Next seed
  (listSwap a i (t * (i + 1) / U32), seed1)

/-- The source's `stableShuffle`: Fisher-Yates driven by `mulberry32`
seeded with `hash32 seedStr`; does not mutate its input. -/
def stableShuffle (arr : List α) (seedStr : String) : List α :=
  ((downFrom (arr.length - 1)).foldl shuffleStep (arr, hash32 seedStr)).1

/-- Decimal digit character: `digitChar d` is the character for digit `d`. -/
def digitChar (d : Nat) : Char := Char.ofNat (48 + d)

/-- Fuelled decimal rendering of a natural number (most significant digit
first); `fuel > n` suffices.  Structural recursion so that the kernel can
evaluate it. -/
def toDecimalAux : Nat → Nat → List Char
  | 0, _ => []
  | fuel + 1, n =>
    if n < 10 then [digitChar n] else toDecimalAux fuel (n / 10) ++ [digitChar (n % 10)]

/-- Model of JS number-to-string conversion for a natural number, as used by
template literals such as `` `${trialId}` ``. -/
def natToString (n : Nat) : String := String.mk (toDecimalAux (n + 1) n)

/-- The binding outcome of a comparison: which side wins. -/
inductive Side where
  | left : Side
  | right : Side
deriving DecidableEq, Repr

/-- A vote row as consumed by the scheduler and the history merge: the
fields of the Vote record that the core reads.  `preferred` and
`resolved_preferred` are `Option` to model absent (`undefined`/`null`)
fields seen through `??`. -/
structure Row where
  participant_id : String
  component : String
  trial_id : Nat
  left_method_id : String
  right_method_id : String
  preferred : Option String := none
  resolved_preferred : Option String := none
deriving DecidableEq, Repr

/-- The source's `TOPA_FAVORITES` set `{"G", "H", "I"}`. -/
def TOPA_FAVORITES : List String := ["G", "H", "I"]

/-- The source's `TOPA_FAVORITE_ORDER` record `{H: 0, I: 1, G: 2}`;
a missing key yields the default 999 (`?? 999`). -/
def favoriteOrder (m : String) : Nat :=
  if m = "H" then 0 else if m = "I" then 1 else if m = "G" then 2 else 999

/-- The source's `resolveTiePreferred`: both favored → lower rank wins;
exactly one favored → it wins; neither → deterministic coin from the seed
`pid::component::trialId::tie::left::right`, left iff the draw is below
one half, i.e. below `2 ^ 31`. -/
def resolveTiePreferred (pid component : String) (trialId : Nat)
    (leftId rightId : String) : Side :=
  let l := leftId
  let r := rightId
  let lFav := TOPA_FAVORITES.contains l
  let rFav := TOPA_FAVORITES.contains r
  if lFav && rFav then
    if favoriteOrder l ≤ favoriteOrder r then Side.left else Side.right
  else if lFav && !rFav then Side.left
  else if !lFav && rFav then Side.right
  else
    let seed := hash32 (pid ++ "::" ++ component ++ "::" ++ natToString trialId
      ++ "::tie::" ++ l ++ "::" ++ r)
    if (mulberry32Next seed).2 < 2147483648 then Side.left else Side.right

/-- Does a row belong to this participant and component?  The filter
predicate of `nextPair`. -/
def rowMatches (pid component : String) (r : Row) : Bool :=
  r.participant_id = pid && r.component = component

/-- Stable insertion of a row into a list sorted by ascending `trial_id`:
the new row goes before the first row whose trial id is not smaller. -/
def insertByTrial (x : Row) : List Row → List Row
  | [] => [x]
  | y :: ys => if y.trial_id < x.trial_id then y :: insertByTrial x ys else x :: y :: ys

/-- Stable sort by ascending `trial_id`, the model of
`.sort((a, b) => (a.trial_id ?? 0) - (b.trial_id ?? 0))`. -/
def sortByTrial : List Row → List Row
  | [] => []
  | x :: xs => insertByTrial x (sortByTrial xs)

/-- Append an element to a list unless already present: one `Set.add` of
the JS insertion-ordered `Set`. -/
def addUnique (s : List String) (x : String) : List String :=
  if s.contains x then s else s ++ [x]

/-- One row's contribution to the `appeared` set:
`appeared.add(r.left_method_id); appeared.add(r.right_method_id)`. -/
def appearedStep (s : List String) (r : Row) : List String :=
  addUnique (addUnique s r.left_method_id) r.right_method_id

/-- The `appeared` set of `nextPair`: every method id occurring on either
side of any row, in insertion order, without duplicates. -/
def appearedOf (rows : List Row) : List String :=
  rows.foldl appearedStep []

/-- ASCII lower-casing, the model of `String.prototype.toLowerCase` on the
identifiers in play; character-by-character so the kernel can evaluate it. -/
def toLowerStr (s : String) : String := String.mk (s.data.map Char.toLower)

/-- The outcome string the scheduler interprets for the last row:
`String(last.resolved_preferred ?? last.preferred ?? "").toLowerCase()`. -/
def championPref (last : Row) : String :=
  toLowerStr (last.resolved_preferred.getD (last.preferred.getD ""))

/-- The champion derived from the last row in `nextPair`: "left"/"right"
pick that side, "tie" is re-resolved with the row's own trial id and method
ids, anything else falls back to the left method id. -/
def championOf (pid component : String) (last : Row) : String :=
  let pref := championPref last
  if pref = "left" then last.left_method_id
  else if pref = "right" then last.right_method_id
  else if pref = "tie" then
    match resolveTiePreferred pid component last.trial_id
        last.left_method_id last.right_method_id with
    | Side.left => last.left_method_id
    | Side.right => last.right_method_id
  else last.left_method_id

/-- The source's `nextPair`: guard, filter + sort the history, bootstrap
from the seeded shuffle when no rows exist, otherwise champion of the last
row versus a pseudo-randomly chosen unseen challenger; null when the
tournament is complete. -/
def nextPair (pid component : String) (methodIds : List String)
    (history : List Row) : Option (String × String) :=
  if pid = "" ∨ methodIds.length < 2 then none
  else
    let rows := sortByTrial (history.filter (rowMatches pid component))
    match rows.getLast? with
    | none =>
      let shuffled := stableShuffle methodIds (pid ++ "::" ++ component)
      some (shuffled.getD 0 "", shuffled.getD 1 "")
    | some last =>
      let champion := championOf pid component last
      let appeared := appearedOf rows
      let unseen := methodIds.filter (fun m => !appeared.contains m && m ≠ champion)
      if unseen.length = 0 then none
      else
        let seed := hash32 (pid ++ "::" ++ component ++ "::" ++ natToString appeared.length)
        some (champion, unseen.getD ((mulberry32Next seed).2 * unseen.length / U32) "")

/-- The source's `historyKey`: the joined string
`participant_id::component::trial_id`. -/
def historyKey (r : Row) : String :=
  r.participant_id ++ "::" ++ r.component ++ "::" ++ natToString r.trial_id

/-- JS `Map.set` on an insertion-ordered association list: overwrite in
place when the key exists, append otherwise. -/
def mapSet (m : List (String × Row)) (k : String) (v : Row) : List (String × Row) :=
  if m.any (fun p => p.1 = k) then
    m.map (fun p => if p.1 = k then (k, v) else p)
  else m ++ [(k, v)]

/-- The comparator of `mergeHistory`'s final sort, as a strict relation:
`a` strictly precedes `b` when its component is smaller, or components are
equal and its trial id is smaller. -/
def rowBefore (a b : Row) : Prop :=
  a.component < b.component ∨ (a.component = b.component ∧ a.trial_id < b.trial_id)

instance : DecidableRel rowBefore := fun a b => by
  unfold rowBefore; infer_instance

/-- Stable insertion for the merge sort order: pass rows that strictly
precede `x`, place `x` before the first row that does not. -/
def insertMerge (x : Row) : List Row → List Row
  | [] => [x]
  | y :: ys => if rowBefore y x then y :: insertMerge x ys else x :: y :: ys

/-- Stable sort by component (lexicographic) then trial id (numeric), the
model of `mergeHistory`'s `.sort` comparator. -/
def sortMerge : List Row → List Row
  | [] => []
  | x :: xs => insertMerge x (sortMerge xs)

/-- One step of `mergeHistory`'s first loop:
`for (const r of remoteRows || []) m.set(historyKey(r), r)`. -/
def remoteStep (m : List (String × Row)) (r : Row) : List (String × Row) :=
  mapSet m (historyKey r) r

/-- One step of `mergeHistory`'s second loop: keep a local row only when
its key is not yet present
(`if (!m.has(k)) m.set(k, r)`). -/
def localStep (m : List (String × Row)) (r : Row) : List (String × Row) :=
  if m.any (fun p => p.1 = historyKey r) then m else m ++ [(historyKey r, r)]

/-- The source's `mergeHistory`: seed a map from `historyKey` with the
remote rows (authoritative), add local rows only under fresh keys, and
return the values sorted by component then trial id. -/
def mergeHistory (localRows remoteRows : List Row) : List Row :=
  let m := remoteRows.foldl remoteStep []
  let m2 := localRows.foldl localStep m
  sortMerge (m2.map (fun p => p.2))

/-- JS `\s` for the ASCII range: the whitespace characters the sanitizer's
`trim` and `\s+` recognize on the identifiers in play. -/
def isJsSpace (c : Char) : Bool :=
  c = ' ' || c = '\t' || c = '\n' || c = '\r' || c = '\x0b' || c = '\x0c'

/-- Replace every maximal run of whitespace with a single underscore; the
flag records whether the previous character was whitespace. -/
def collapseWsAux : Bool → List Char → List Char
  | _, [] => []
  | prevSpace, c :: cs =>
    if isJsSpace c then
      if prevSpace then collapseWsAux true cs
      else '_' :: collapseWsAux true cs
    else c :: collapseWsAux false cs

/-- Strip leading and trailing whitespace (`String.prototype.trim`). -/
def trimChars (l : List Char) : List Char :=
  ((l.dropWhile isJsSpace).reverse.dropWhile isJsSpace).reverse

/-- Characters kept by the sanitizer: `[a-zA-Z0-9_-]`. -/
def keepChar (c : Char) : Bool :=
  ('a' ≤ c && c ≤ 'z') || ('A' ≤ c && c ≤ 'Z') || ('0' ≤ c && c ≤ '9') || c = '_' || c = '-'

/-- The component sanitization of `makeVoteId`: trim, collapse whitespace
runs to single underscores, delete everything outside `[a-zA-Z0-9_-]`. -/
def sanitizeComponent (component : String) : String :=
  String.mk ((collapseWsAux false (trimChars component.data)).filter keepChar)

/-- The source's `makeVoteId`: `pid__sanitizedComponent__trialId`. -/
def makeVoteId (pid component : String) (trialId : Nat) : String :=
  pid ++ "__" ++ sanitizeComponent component ++ "__" ++ natToString trialId

/-- Decimal evaluation of a character list, used to invert `natToString`. -/
def evalDec (l : List Char) : Nat :=
  l.foldl (fun a c => 10 * a + (c.toNat - 48)) 0

/-- The `(participant_id, component, trial_id)` tuple of a row. -/
def tupleKey (r : Row) : String × String × Nat :=
  (r.participant_id, r.component, r.trial_id)

/-- The remote-authority property exactly as the specification states it,
with rows keyed by their `(participant_id, component, trial_id)` tuple:
whenever local and remote both contain a row with some tuple key, the
merged output contains a remote row with that tuple key. -/
def mergeKeyedByTuple (localRows remoteRows : List Row) : Prop :=
  ∀ a ∈ localRows, ∀ b ∈ remoteRows, tupleKey a = tupleKey b →
    ∃ r ∈ mergeHistory localRows remoteRows, tupleKey r = tupleKey a ∧ r ∈ remoteRows

/-- The nonstrict merge order: sorted by component lexicographically
ascending, then trial id numerically ascending. -/
def rowLe (a b : Row) : Prop :=
  a.component < b.component ∨ (a.component = b.component ∧ a.trial_id ≤ b.trial_id)

/-- The vote row appended after a trial: the returned pair becomes the
left and right method ids, and the chosen winner is stored both as
`preferred` and `resolved_preferred`. -/
def mkRow (pid component : String) (t : Nat) (a b : String) (w : Side) : Row :=
  { participant_id := pid
    component := component
    trial_id := t
    left_method_id := a
    right_method_id := b
    preferred := some (match w with | Side.left => "left" | Side.right => "right")
    resolved_preferred := some (match w with | Side.left => "left" | Side.right => "right") }

/-- The tournament driver: starting from the base history `h0`, repeatedly
call `nextPair`; after each non-null pair append a vote row for it with
trial id `k + 1` and the winner chosen by `w`. `runTournament ... k` is the
history after `k` such steps. -/
def runTournament (pid component : String) (methodIds : List String)
    (w : Nat → Side) (h0 : List Row) : Nat → List Row
  | 0 => h0
  | k + 1 =>
    let h := runTournament pid component methodIds w h0 k
    match nextPair pid component methodIds h with
    | none => h
    | some (a, b) => h ++ [mkRow pid component (k + 1) a b (w k)]

/-- The rows of the run's history that `nextPair` sees: the filter of the
tournament history for this participant and component. -/
def runFiltered (pid component : String) (methodIds : List String)
    (w : Nat → Side) (h0 : List Row) (k : Nat) : List Row :=
  (runTournament pid component methodIds w h0 k).filter (rowMatches pid component)

/-! ## Basic numeric facts about the PRNG -/

theorem U32_eq_pow : U32 = 2 ^ 32 := by decide

/-- Every `mulberry32` output is a genuine 32-bit value. -/
theorem mulberry32Next_snd_lt (seed : Nat) : (mulberry32Next seed).2 < U32 := by
  unfold mulberry32Next
  rw [U32_eq_pow]
  have h1 : (seed + 0x6d2b79f5) % U32 < 2 ^ 32 := by
    rw [U32_eq_pow]; exact Nat.mod_lt _ (by norm_num)
  have h2 : ∀ a : Nat, a % U32 < 2 ^ 32 := fun a => by
    rw [U32_eq_pow]; exact Nat.mod_lt _ (by norm_num)
  have hshift : ∀ a k : Nat, a < 2 ^ 32 → a >>> k < 2 ^ 32 := fun a k ha => by
    calc a >>> k = a / 2 ^ k := Nat.shiftRight_eq_div_pow a k
    _ ≤ a := Nat.div_le_self a _
    _ < 2 ^ 32 := ha
  have ht2 : Nat.xor ((Nat.xor ((seed + 0x6d2b79f5) % U32)
      (((seed + 0x6d2b79f5) % U32) >>> 15)) * (((seed + 0x6d2b79f5) % U32) ||| 1) % U32)
      ((((Nat.xor ((seed + 0x6d2b79f5) % U32) (((seed + 0x6d2b79f5) % U32) >>> 15)) *
        (((seed + 0x6d2b79f5) % U32) ||| 1) % U32) +
        (Nat.xor ((Nat.xor ((seed + 0x6d2b79f5) % U32) (((seed + 0x6d2b79f5) % U32) >>> 15)) *
          (((seed + 0x6d2b79f5) % U32) ||| 1) % U32)
          (((Nat.xor ((seed + 0x6d2b79f5) % U32) (((seed + 0x6d2b79f5) % U32) >>> 15)) *
            (((seed + 0x6d2b79f5) % U32) ||| 1) % U32) >>> 7)) *
          (((Nat.xor ((seed + 0x6d2b79f5) % U32) (((seed + 0x6d2b79f5) % U32) >>> 15)) *
            (((seed + 0x6d2b79f5) % U32) ||| 1) % U32) ||| 61) % U32) % U32) < 2 ^ 32 :=
    Nat.xor_lt_two_pow (h2 _) (h2 _)
  exact Nat.xor_lt_two_pow ht2 (hshift _ _ ht2)

/-- The challenger index `floor(rnd() * n) = t * n / 2 ^ 32` is in range. -/
theorem draw_index_lt {t n : Nat} (ht : t < U32) (hn : 0 < n) : t * n / U32 < n := by
  have h32 : 0 < U32 := by decide
  rw [Nat.div_lt_iff_lt_mul h32]
  calc t * n < U32 * n := (Nat.mul_lt_mul_right hn).mpr ht
  _ = n * U32 := Nat.mul_comm _ _

/-! ## Permutation facts about the shuffle -/

/-- Moving an element stored at position `m` to the front, after writing a
new value in its place, is a permutation of consing the new value. -/
theorem cons_set_perm {α : Type} : ∀ (t : List α) (m : Nat) (x y : α),
    t.get? m = some y → List.Perm (x :: t) (y :: t.set m x) := by
  intro t
  induction t with
  | nil => intro m x y h; simp at h
  | cons h t ih =>
    intro m x y hm
    cases m with
    | zero =>
      simp at hm
      subst hm
      simpa using List.Perm.swap h x t
    | succ k =>
      simp only [List.get?_cons_succ] at hm
      exact List.Perm.trans (List.Perm.swap h x t)
        (List.Perm.trans (List.Perm.cons h (ih k x y hm)) (List.Perm.swap y h (t.set k x)))

/-- `listSwap` permutes the list. -/
theorem listSwap_perm {α : Type} : ∀ (l : List α) (i j : Nat), List.Perm (listSwap l i j) l := by
  intro l
  induction l with
  | nil => intro i j; unfold listSwap; simp
  | cons h t ih =>
    intro i j
    unfold listSwap
    cases i with
    | zero =>
      cases j with
      | zero => simp
      | succ m =>
        simp only [List.get?_cons_zero, List.get?_cons_succ]
        cases hm : t.get? m with
        | none => simp
        | some y =>
          simp only [List.set_cons_zero, List.set_cons_succ]
          exact (cons_set_perm t m h y hm).symm
    | succ n =>
      cases j with
      | zero =>
        simp only [List.get?_cons_zero, List.get?_cons_succ]
        cases hn : t.get? n with
        | none => simp
        | some x =>
          simp only [List.set_cons_succ, List.set_cons_zero]
          exact (cons_set_perm t n h x hn).symm
      | succ m =>
        simp only [List.get?_cons_succ]
        cases hn : t.get? n with
        | none => simp
        | some x =>
          cases hm : t.get? m with
          | none => simp
          | some y =>
            simp only [List.set_cons_succ]
            have := ih n m
            unfold listSwap at this
            rw [hn, hm] at this
            exact List.Perm.cons h this

/-- The whole Fisher-Yates fold permutes the list. -/
theorem shuffle_fold_perm {α : Type} :
    ∀ (steps : List Nat) (l : List α) (seed : Nat),
      List.Perm ((steps.foldl shuffleStep (l, seed)).1) l := by
  intro steps
  induction steps with
  | nil => intro l seed; exact List.Perm.refl l
  | cons i rest ih =>
    intro l seed
    simp only [List.foldl_cons]
    unfold shuffleStep
    exact List.Perm.trans (ih _ _) (listSwap_perm l i _)

/-- `stableShuffle` returns a permutation of its input. -/
theorem stableShuffle_perm {α : Type} (arr : List α) (seedStr : String) :
    List.Perm (stableShuffle arr seedStr) arr :=
  shuffle_fold_perm _ arr (hash32 seedStr)

theorem stableShuffle_length {α : Type} (arr : List α) (seedStr : String) :
    (stableShuffle arr seedStr).length = arr.length :=
  (stableShuffle_perm arr seedStr).length_eq

theorem stableShuffle_nodup {α : Type} {arr : List α} (h : arr.Nodup) (seedStr : String) :
    (stableShuffle arr seedStr).Nodup :=
  ((stableShuffle_perm arr seedStr).nodup_iff).mpr h

theorem stableShuffle_mem {α : Type} {arr : List α} {x : α} (seedStr : String)
    (h : x ∈ stableShuffle arr seedStr) : x ∈ arr :=
  (stableShuffle_perm arr seedStr).mem_iff.mp h

/-- A `getD` at an in-range index is a member. -/
theorem getD_mem {α : Type} : ∀ (l : List α) (n : Nat) (d : α), n < l.length → l.getD n d ∈ l := by
  intro l
  induction l with
  | nil => intro n d h; simp at h
  | cons a t ih =>
    intro n d h
    cases n with
    | zero => simp
    | succ k =>
      have hmem : t.getD k d ∈ t := ih k d (by simpa using h)
      rw [List.getD_cons_succ]
      exact List.mem_cons_of_mem a hmem

/-! ## Claim C2: determinism -/

/-- C2: `resolveTiePreferred` and `nextPair` are deterministic pure
functions: two calls with identical arguments (participant, component,
trial, sides; participant, component, eligible ids, history) return
identical results.  In this embedding both are total functions of their
arguments, so the two calls are literally the same value. -/
theorem resolveTie_nextPair_deterministic
    (pid component : String) (trialId : Nat) (leftId rightId : String)
    (methodIds : List String) (history : List Row) :
    resolveTiePreferred pid component trialId leftId rightId =
      resolveTiePreferred pid component trialId leftId rightId ∧
    nextPair pid component methodIds history =
      nextPair pid component methodIds history :=
  ⟨rfl, rfl⟩

/-! ## Claim C8: insufficient input returns null -/

/-- C8: `nextPair` returns `none` (rather than a pair or an error) whenever
the participant id is empty or fewer than two eligible method ids are
given, for every component and every history. -/
theorem nextPair_insufficient_input (pid component : String)
    (methodIds : List String) (history : List Row)
    (h : pid = "" ∨ methodIds.length < 2) :
    nextPair pid component methodIds history = none := by
  unfold nextPair
  rw [if_pos h]

/-- Witness for C8 at a concrete input: empty participant id with two
methods and a nonempty history. -/
theorem nextPair_insufficient_input_witness :
    nextPair "" "cautions" ["A", "B"]
      [{ participant_id := "", component := "cautions", trial_id := 1,
         left_method_id := "A", right_method_id := "B",
         preferred := some "left", resolved_preferred := some "left" }] = none :=
  nextPair_insufficient_input "" "cautions" ["A", "B"] _ (Or.inl rfl)

/-! ## Claim C4: favorites precedence in tie resolution -/

/-- C4: the favorites policy of `resolveTiePreferred`: when both method ids
are in the favored set {G, H, I} the side whose method ranks lower under
H < I < G wins; when exactly one side is favored that side wins; in
particular (H, I) resolves left, (I, G) resolves left and (X, H) resolves
right, for every participant, component and trial. -/
theorem resolveTie_favorites (pid component : String) (trialId : Nat)
    (l r : String) :
    (l ∈ TOPA_FAVORITES → r ∈ TOPA_FAVORITES →
      favoriteOrder l < favoriteOrder r →
      resolveTiePreferred pid component trialId l r = Side.left) ∧
    (l ∈ TOPA_FAVORITES → r ∈ TOPA_FAVORITES →
      favoriteOrder r < favoriteOrder l →
      resolveTiePreferred pid component trialId l r = Side.right) ∧
    (l ∈ TOPA_FAVORITES → r ∉ TOPA_FAVORITES →
      resolveTiePreferred pid component trialId l r = Side.left) ∧
    (l ∉ TOPA_FAVORITES → r ∈ TOPA_FAVORITES →
      resolveTiePreferred pid component trialId l r = Side.right) ∧
    resolveTiePreferred pid component trialId "H" "I" = Side.left ∧
    resolveTiePreferred pid component trialId "I" "G" = Side.left ∧
    resolveTiePreferred pid component trialId "X" "H" = Side.right := by
  refine ⟨?_, ?_, ?_, ?_, rfl, rfl, rfl⟩
  · intro hl hr hord
    have hl3 : l = "G" ∨ l = "H" ∨ l = "I" := by simpa [TOPA_FAVORITES] using hl
    have hr3 : r = "G" ∨ r = "H" ∨ r = "I" := by simpa [TOPA_FAVORITES] using hr
    rcases hl3 with rfl | rfl | rfl <;> rcases hr3 with rfl | rfl | rfl <;>
      first
        | rfl
        | (exfalso; revert hord; decide)
  · intro hl hr hord
    have hl3 : l = "G" ∨ l = "H" ∨ l = "I" := by simpa [TOPA_FAVORITES] using hl
    have hr3 : r = "G" ∨ r = "H" ∨ r = "I" := by simpa [TOPA_FAVORITES] using hr
    rcases hl3 with rfl | rfl | rfl <;> rcases hr3 with rfl | rfl | rfl <;>
      first
        | rfl
        | (exfalso; revert hord; decide)
  · intro hl hr
    simp [resolveTiePreferred, hl, hr]
  · intro hl hr
    simp [resolveTiePreferred, hl, hr]

/-- Witness for C4: the three spec examples and one generic-favored case,
obtained from the theorem at concrete inputs. -/
theorem resolveTie_favorites_witness :
    resolveTiePreferred "P00001" "cautions" 3 "H" "I" = Side.left ∧
    resolveTiePreferred "P00001" "cautions" 3 "X" "H" = Side.right :=
  ⟨((resolveTie_favorites "P00001" "cautions" 3 "H" "I").1
      (by decide) (by decide) (by decide)),
   ((resolveTie_favorites "P00001" "cautions" 3 "X" "H").2.2.2.1
      (by decide) (by decide))⟩

/-! ## Claim C3: bootstrap case (corrected seed) -/

/-- Counterexample to C3 as stated: with no prior rows, `nextPair` does
not return the first two entries of the shuffle seeded by the plain
concatenation `participantId + component`.  At participant "P00001" and
component "cautions" the code's pair is ("C", "B") while the shuffle
seeded by "P00001cautions" starts ("A", "B"). -/
theorem nextPair_bootstrap_cex :
    nextPair "P00001" "cautions" ["A", "B", "C"] [] ≠
      some ((stableShuffle ["A", "B", "C"] ("P00001" ++ "cautions")).getD 0 "",
            (stableShuffle ["A", "B", "C"] ("P00001" ++ "cautions")).getD 1 "") := by
  decide

/-- C3 amended: with no prior rows for the participant and component (and
the preconditions satisfied), `nextPair` returns the first two entries of
the deterministic Fisher-Yates shuffle of the eligible method ids seeded by
`participantId ++ "::" ++ component`. -/
theorem nextPair_bootstrap (pid component : String) (methodIds : List String)
    (history : List Row)
    (h1 : ¬ pid = "") (h2 : 2 ≤ methodIds.length)
    (h3 : ∀ r ∈ history, rowMatches pid component r = false) :
    nextPair pid component methodIds history =
      some ((stableShuffle methodIds (pid ++ "::" ++ component)).getD 0 "",
            (stableShuffle methodIds (pid ++ "::" ++ component)).getD 1 "") := by
  have hfilter : history.filter (rowMatches pid component) = [] :=
    List.filter_eq_nil_iff.mpr (fun r hr => by simp [h3 r hr])
  unfold nextPair
  rw [if_neg (by push_neg; exact ⟨h1, h2⟩), hfilter]
  rfl

/-- Witness for the amended C3 at the concrete counterexample input. -/
theorem nextPair_bootstrap_witness :
    nextPair "P00001" "cautions" ["A", "B", "C"] [] =
      some ((stableShuffle ["A", "B", "C"] ("P00001" ++ "::" ++ "cautions")).getD 0 "",
            (stableShuffle ["A", "B", "C"] ("P00001" ++ "::" ++ "cautions")).getD 1 "") :=
  nextPair_bootstrap "P00001" "cautions" ["A", "B", "C"] []
    (by decide) (by decide) (by simp)

/-! ## Claim C10: the champion is not eligibility-checked, the challenger is -/

/-- Helper: whenever `nextPair` returns a pair, its second component (the
challenger) is drawn from the eligible method ids. -/
theorem nextPair_snd_mem (pid component : String) (methodIds : List String)
    (history : List Row) (a b : String)
    (h : nextPair pid component methodIds history = some (a, b)) :
    b ∈ methodIds := by
  unfold nextPair at h
  split at h
  · exact absurd h (by simp)
  · rename_i hguard
    push_neg at hguard
    dsimp only at h
    split at h
    · rename_i heq
      simp only [Option.some.injEq, Prod.mk.injEq] at h
      obtain ⟨-, hb⟩ := h
      have hlen : 1 < (stableShuffle methodIds (pid ++ "::" ++ component)).length := by
        rw [stableShuffle_length]; exact hguard.2
      have hmem := getD_mem (stableShuffle methodIds (pid ++ "::" ++ component)) 1 "" hlen
      rw [hb] at hmem
      exact stableShuffle_mem _ hmem
    · rename_i last heq
      split at h
      · exact absurd h (by simp)
      · rename_i hne
        simp only [Option.some.injEq, Prod.mk.injEq] at h
        obtain ⟨-, hb⟩ := h
        have hpos : 0 < (List.filter
            (fun m => !(appearedOf (sortByTrial (history.filter (rowMatches pid component)))).contains m &&
              decide (m ≠ championOf pid component last)) methodIds).length :=
          Nat.pos_of_ne_zero hne
        have hidx := draw_index_lt (t :=
          (mulberry32Next (hash32 (pid ++ "::" ++ component ++ "::" ++
            natToString (appearedOf (sortByTrial (history.filter (rowMatches pid component)))).length))).2)
          (mulberry32Next_snd_lt _) hpos
        have hmem := getD_mem _ _ "" hidx
        rw [hb] at hmem
        exact (List.mem_filter.mp hmem).1

/-- C10: the champion (first element) of a steady-state pair is derived
from history alone and is never checked against `eligibleMethodIds`: at a
concrete input whose last row's winner "Z" is not eligible, `nextPair`
returns ("Z", "A") although "Z" is not an eligible method id; the second
element (the challenger) is always drawn from `eligibleMethodIds`. -/
theorem nextPair_champion_not_validated
    (pid component : String) (methodIds : List String) (history : List Row)
    (a b : String) :
    (nextPair "P" "c" ["A", "B", "C"]
        [{ participant_id := "P", component := "c", trial_id := 1,
           left_method_id := "Z", right_method_id := "B",
           preferred := some "left", resolved_preferred := some "left" }] =
      some ("Z", "A") ∧ "Z" ∉ ["A", "B", "C"]) ∧
    (nextPair pid component methodIds history = some (a, b) → b ∈ methodIds) :=
  ⟨by decide, fun h => nextPair_snd_mem pid component methodIds history a b h⟩

/-- Witness for C10: at the concrete input above, the challenger "A" is
indeed one of the eligible method ids. -/
theorem nextPair_champion_not_validated_witness :
    "A" ∈ ["A", "B", "C"] :=
  (nextPair_champion_not_validated "P" "c" ["A", "B", "C"]
    [{ participant_id := "P", component := "c", trial_id := 1,
       left_method_id := "Z", right_method_id := "B",
       preferred := some "left", resolved_preferred := some "left" }] "Z" "A").2
    (by decide)

/-! ## Claim C9: champion derivation is total and follows the precedence -/

/-- C9: champion derivation never fails and follows the stated precedence:
the interpreted outcome string comes from `resolved_preferred` when
present, else from `preferred`, lower-cased; "left"/"right" pick that side
of the last row; "tie" re-resolves with the last row's own trial id and
method ids; any other value falls back to the left method id; the result
is always one of the last row's two method ids; and whenever the history
for the participant and component is non-empty, the first element of a
non-null `nextPair` result is exactly this champion. -/
theorem championOf_spec (pid component : String) (last : Row)
    (methodIds : List String) (history : List Row) (a b : String) :
    (championOf pid component last = last.left_method_id ∨
     championOf pid component last = last.right_method_id) ∧
    (∀ s, last.resolved_preferred = some s → championPref last = toLowerStr s) ∧
    (last.resolved_preferred = none → ∀ s, last.preferred = some s →
      championPref last = toLowerStr s) ∧
    (championPref last = "left" → championOf pid component last = last.left_method_id) ∧
    (championPref last = "right" → championOf pid component last = last.right_method_id) ∧
    (championPref last = "tie" → championOf pid component last =
      (match resolveTiePreferred pid component last.trial_id last.left_method_id
          last.right_method_id with
       | Side.left => last.left_method_id
       | Side.right => last.right_method_id)) ∧
    (championPref last ≠ "left" → championPref last ≠ "right" →
      championPref last ≠ "tie" →
      championOf pid component last = last.left_method_id) ∧
    ((sortByTrial (history.filter (rowMatches pid component))).getLast? = some last →
      nextPair pid component methodIds history = some (a, b) →
      a = championOf pid component last) := by
  refine ⟨?_, ?_, ?_, ?_, ?_, ?_, ?_, ?_⟩
  · unfold championOf
    dsimp only
    split
    · exact Or.inl rfl
    · split
      · exact Or.inr rfl
      · split
        · cases resolveTiePreferred pid component last.trial_id last.left_method_id
            last.right_method_id
          · exact Or.inl rfl
          · exact Or.inr rfl
        · exact Or.inl rfl
  · intro s h
    unfold championPref
    rw [h]
    rfl
  · intro h s h2
    unfold championPref
    rw [h, h2]
    rfl
  · intro h
    simp [championOf, h]
  · intro h
    simp [championOf, h]
  · intro h
    simp [championOf, h]
  · intro h1 h2 h3
    simp [championOf, h1, h2, h3]
  · intro hlast hnp
    unfold nextPair at hnp
    split at hnp
    · exact absurd hnp (by simp)
    · dsimp only at hnp
      split at hnp
      · rename_i heq
        rw [hlast] at heq
        exact absurd heq (by simp)
      · rename_i last2 heq
        rw [hlast] at heq
        obtain rfl : last2 = last := by
          simpa using heq.symm
        split at hnp
        · exact absurd hnp (by simp)
        · simp only [Option.some.injEq, Prod.mk.injEq] at hnp
          exact hnp.1.symm

/-- Witness for C9: a last row with an unparseable stored outcome
("banana") falls back to its left method id. -/
theorem championOf_spec_witness :
    championOf "P" "c"
      { participant_id := "P", component := "c", trial_id := 1,
        left_method_id := "A", right_method_id := "B",
        preferred := some "banana", resolved_preferred := none } = "A" :=
  (championOf_spec "P" "c"
    { participant_id := "P", component := "c", trial_id := 1,
      left_method_id := "A", right_method_id := "B",
      preferred := some "banana", resolved_preferred := none }
    [] [] "" "").2.2.2.2.2.2.1 (by decide) (by decide) (by decide)

/-! ## Claim C7: vote id sanitization and injectivity -/

/-- The ten decimal digit characters, bounds and code points. -/
theorem digitChar_facts : ∀ d, d < 10 →
    '0' ≤ digitChar d ∧ digitChar d ≤ '9' ∧ (digitChar d).toNat = 48 + d := by
  decide

/-- A decimal rendering with sufficient fuel is never empty. -/
theorem toDecimalAux_ne_nil : ∀ fuel n, n < fuel → toDecimalAux fuel n ≠ [] := by
  intro fuel
  induction fuel with
  | zero => intro n h; omega
  | succ f ih =>
    intro n h
    unfold toDecimalAux
    by_cases h10 : n < 10
    · rw [if_pos h10]; simp
    · rw [if_neg h10]; simp

/-- Every character of a decimal rendering is a digit. -/
theorem toDecimalAux_digits : ∀ fuel n, n < fuel →
    ∀ c ∈ toDecimalAux fuel n, '0' ≤ c ∧ c ≤ '9' := by
  intro fuel
  induction fuel with
  | zero => intro n h; omega
  | succ f ih =>
    intro n h c hc
    unfold toDecimalAux at hc
    by_cases h10 : n < 10
    · rw [if_pos h10] at hc
      simp at hc
      subst hc
      exact ⟨(digitChar_facts n h10).1, (digitChar_facts n h10).2.1⟩
    · rw [if_neg h10] at hc
      rcases List.mem_append.mp hc with hin | hin
      · have hdiv : n / 10 < f := by
          have : n / 10 < n := Nat.div_lt_self (by omega) (by norm_num)
          omega
        exact ih (n / 10) hdiv c hin
      · simp at hin
        subst hin
        have hm : n % 10 < 10 := Nat.mod_lt _ (by norm_num)
        exact ⟨(digitChar_facts _ hm).1, (digitChar_facts _ hm).2.1⟩

theorem evalDec_append_single (xs : List Char) (c : Char) :
    evalDec (xs ++ [c]) = 10 * evalDec xs + (c.toNat - 48) := by
  unfold evalDec
  rw [List.foldl_append]
  rfl

/-- Decimal rendering round-trips through decimal evaluation. -/
theorem evalDec_toDecimalAux : ∀ fuel n, n < fuel →
    evalDec (toDecimalAux fuel n) = n := by
  intro fuel
  induction fuel with
  | zero => intro n h; omega
  | succ f ih =>
    intro n h
    unfold toDecimalAux
    by_cases h10 : n < 10
    · rw [if_pos h10]
      have hd := (digitChar_facts n h10).2.2
      simp [evalDec, hd]
    · rw [if_neg h10]
      rw [evalDec_append_single]
      have hdiv : n / 10 < f := by
        have : n / 10 < n := Nat.div_lt_self (by omega) (by norm_num)
        omega
      rw [ih (n / 10) hdiv]
      have hm : (digitChar (n % 10)).toNat = 48 + n % 10 :=
        (digitChar_facts _ (Nat.mod_lt _ (by norm_num))).2.2
      rw [hm]
      omega

/-- A digit-suffixed word cannot match another whose digit suffix is
strictly longer: position `d1.length` from the right holds an underscore on
one side and a digit on the other. -/
theorem sep_digits_len_lt (s1 s2 d1 d2 : List Char)
    (hd2 : ∀ c ∈ d2, '0' ≤ c ∧ c ≤ '9')
    (heq : s1 ++ '_' :: '_' :: d1 = s2 ++ '_' :: '_' :: d2)
    (hlt : d1.length < d2.length) : False := by
  have hrev : d1.reverse ++ '_' :: '_' :: s1.reverse =
      d2.reverse ++ '_' :: '_' :: s2.reverse := by
    have := congrArg List.reverse heq
    simpa [List.reverse_append] using this
  have hleft : (d1.reverse ++ '_' :: '_' :: s1.reverse).get? d1.length = some '_' := by
    rw [List.get?_append_right (by simp)]
    simp
  have hlen2 : d1.length < d2.reverse.length := by simpa using hlt
  have hright : (d2.reverse ++ '_' :: '_' :: s2.reverse).get? d1.length =
      d2.reverse.get? d1.length := List.get?_append hlen2
  rw [hrev, hright] at hleft
  have hmem : '_' ∈ d2.reverse := List.get?_mem hleft
  have : ('_' : Char) ≤ '9' := (hd2 '_' (List.mem_reverse.mp hmem)).2
  exact absurd this (by decide)

/-- Words of the shape `s ++ "__" ++ digits` decompose uniquely. -/
theorem sep_digits_inj (s1 s2 d1 d2 : List Char)
    (hd1 : ∀ c ∈ d1, '0' ≤ c ∧ c ≤ '9')
    (hd2 : ∀ c ∈ d2, '0' ≤ c ∧ c ≤ '9')
    (heq : s1 ++ '_' :: '_' :: d1 = s2 ++ '_' :: '_' :: d2) :
    s1 = s2 ∧ d1 = d2 := by
  rcases Nat.lt_trichotomy d1.length d2.length with hlt | heqlen | hgt
  · exact absurd (sep_digits_len_lt s1 s2 d1 d2 hd2 heq hlt) id
  · have heq2 : (s1 ++ ['_', '_']) ++ d1 = (s2 ++ ['_', '_']) ++ d2 := by
      simpa [List.append_assoc] using heq
    obtain ⟨h1, h2⟩ := List.append_inj' heq2 heqlen
    exact ⟨List.append_inj' h1 rfl |>.1, h2⟩
  · exact absurd (sep_digits_len_lt s2 s1 d2 d1 hd1 heq.symm hgt) id

/-- C7: `makeVoteId` sanitizes the component (trim, collapse whitespace to
single underscores, strip characters outside `[A-Za-z0-9_-]`) and composes
`participantId__sanitizedComponent__trialId`, as on the spec's example; and
for a fixed participant id it is injective on (sanitized component, trial
number) pairs. -/
theorem makeVoteId_spec (pid c1 c2 : String) (t1 t2 : Nat) :
    makeVoteId "P00001" "Action Space!" 4 = "P00001__Action_Space__4" ∧
    (makeVoteId pid c1 t1 = makeVoteId pid c2 t2 →
      sanitizeComponent c1 = sanitizeComponent c2 ∧ t1 = t2) := by
  refine ⟨by decide, fun h => ?_⟩
  have hd := congrArg String.data h
  simp only [makeVoteId, String.data_append] at hd
  have hd2 : (sanitizeComponent c1).data ++ '_' :: '_' :: (natToString t1).data =
      (sanitizeComponent c2).data ++ '_' :: '_' :: (natToString t2).data := by
    have hassoc : pid.data ++ ('_' :: '_' :: ((sanitizeComponent c1).data ++
        '_' :: '_' :: (natToString t1).data)) =
        pid.data ++ ('_' :: '_' :: ((sanitizeComponent c2).data ++
        '_' :: '_' :: (natToString t2).data)) := by
      simpa [List.append_assoc] using hd
    have := List.append_cancel_left hassoc
    simpa using this
  have hdig1 : ∀ c ∈ (natToString t1).data, '0' ≤ c ∧ c ≤ '9' :=
    toDecimalAux_digits (t1 + 1) t1 (Nat.lt_succ_self t1)
  have hdig2 : ∀ c ∈ (natToString t2).data, '0' ≤ c ∧ c ≤ '9' :=
    toDecimalAux_digits (t2 + 1) t2 (Nat.lt_succ_self t2)
  obtain ⟨hs, hn⟩ := sep_digits_inj _ _ _ _ hdig1 hdig2 hd2
  refine ⟨String.ext hs, ?_⟩
  have e1 : evalDec (toDecimalAux (t1 + 1) t1) = t1 :=
    evalDec_toDecimalAux (t1 + 1) t1 (Nat.lt_succ_self t1)
  have e2 : evalDec (toDecimalAux (t2 + 1) t2) = t2 :=
    evalDec_toDecimalAux (t2 + 1) t2 (Nat.lt_succ_self t2)
  have hn2 : toDecimalAux (t1 + 1) t1 = toDecimalAux (t2 + 1) t2 := hn
  rw [← e1, ← e2, hn2]

/-- Witness for C7: two components with the same sanitized form and equal
trial numbers produce the same id, and the theorem recovers both facts. -/
theorem makeVoteId_spec_witness :
    sanitizeComponent "a b" = sanitizeComponent "a_b!" ∧ (3 : Nat) = 3 :=
  (makeVoteId_spec "P00001" "a b" "a_b!" 3 3).2 (by decide)

/-! ## Order lemmas for the merge sort -/

theorem rowBefore_asymm {a b : Row} (h : rowBefore a b) : ¬ rowBefore b a := by
  unfold rowBefore at h ⊢
  rcases h with hc | ⟨hc, ht⟩
  · rintro (hc2 | ⟨hc2, -⟩)
    · exact absurd hc2 (lt_asymm hc)
    · exact absurd hc (by rw [hc2]; exact lt_irrefl _)
  · rintro (hc2 | ⟨-, ht2⟩)
    · exact absurd hc2 (by rw [hc]; exact lt_irrefl _)
    · omega

theorem rowLe_iff_not_before {a b : Row} : rowLe a b ↔ ¬ rowBefore b a := by
  unfold rowLe rowBefore
  constructor
  · rintro (hc | ⟨hc, ht⟩)
    · rintro (hc2 | ⟨hc2, -⟩)
      · exact absurd hc2 (lt_asymm hc)
      · exact absurd hc (by rw [← hc2]; exact lt_irrefl _)
    · rintro (hc2 | ⟨-, ht2⟩)
      · exact absurd hc2 (by rw [hc]; exact lt_irrefl _)
      · omega
  · intro h
    rcases lt_trichotomy a.component b.component with hc | hc | hc
    · exact Or.inl hc
    · refine Or.inr ⟨hc, ?_⟩
      by_contra ht
      exact h (Or.inr ⟨hc.symm, by omega⟩)
    · exact absurd (Or.inl hc) h

theorem rowLe_trans {a b c : Row} (h1 : rowLe a b) (h2 : rowLe b c) : rowLe a c := by
  unfold rowLe at h1 h2 ⊢
  rcases h1 with hc1 | ⟨hc1, ht1⟩ <;> rcases h2 with hc2 | ⟨hc2, ht2⟩
  · exact Or.inl (lt_trans hc1 hc2)
  · exact Or.inl (by rw [← hc2]; exact hc1)
  · exact Or.inl (by rw [hc1]; exact hc2)
  · exact Or.inr ⟨by rw [hc1, hc2], by omega⟩

/-! ## The merge sort: permutation, sortedness, stability on sorted input -/

theorem insertMerge_perm (x : Row) (l : List Row) :
    List.Perm (insertMerge x l) (x :: l) := by
  induction l with
  | nil => exact List.Perm.refl _
  | cons y ys ih =>
    unfold insertMerge
    by_cases h : rowBefore y x
    · rw [if_pos h]
      exact List.Perm.trans (List.Perm.cons y ih) (List.Perm.swap x y ys)
    · rw [if_neg h]

theorem sortMerge_perm (l : List Row) : List.Perm (sortMerge l) l := by
  induction l with
  | nil => exact List.Perm.refl _
  | cons x xs ih =>
    unfold sortMerge
    exact List.Perm.trans (insertMerge_perm x (sortMerge xs)) (List.Perm.cons x ih)

theorem insertMerge_pairwise (x : Row) (l : List Row)
    (h : List.Pairwise rowLe l) : List.Pairwise rowLe (insertMerge x l) := by
  induction l with
  | nil => simp [insertMerge, List.pairwise_cons]
  | cons y ys ih =>
    rcases List.pairwise_cons.mp h with ⟨hy, hys⟩
    unfold insertMerge
    by_cases hb : rowBefore y x
    · rw [if_pos hb]
      refine List.pairwise_cons.mpr ⟨?_, ih hys⟩
      intro z hz
      rcases List.mem_cons.mp ((insertMerge_perm x ys).mem_iff.mp hz) with rfl | hzys
      · exact rowLe_iff_not_before.mpr (rowBefore_asymm hb)
      · exact hy z hzys
    · rw [if_neg hb]
      refine List.pairwise_cons.mpr ⟨?_, h⟩
      intro z hz
      rcases List.mem_cons.mp hz with hzy | hzys
      · rw [hzy]
        exact rowLe_iff_not_before.mpr hb
      · exact rowLe_trans (rowLe_iff_not_before.mpr hb) (hy z hzys)

theorem sortMerge_pairwise (l : List Row) : List.Pairwise rowLe (sortMerge l) := by
  induction l with
  | nil => exact List.Pairwise.nil
  | cons x xs ih => exact insertMerge_pairwise x (sortMerge xs) ih

theorem sortMerge_of_pairwise (l : List Row) (h : List.Pairwise rowLe l) :
    sortMerge l = l := by
  induction l with
  | nil => rfl
  | cons x xs ih =>
    rcases List.pairwise_cons.mp h with ⟨hx, hxs⟩
    unfold sortMerge
    rw [ih hxs]
    cases xs with
    | nil => rfl
    | cons y ys =>
      unfold insertMerge
      rw [if_neg]
      exact rowLe_iff_not_before.mp (hx y (List.mem_cons_self y ys))

/-! ## Association-list (JS Map) lemmas -/

theorem anyKey_iff (m : List (String × Row)) (k : String) :
    m.any (fun p => p.1 = k) = true ↔ k ∈ m.map Prod.fst := by
  simp [List.any_eq_true, List.mem_map]

theorem mapSet_keys_of_mem (m : List (String × Row)) (k : String) (v : Row)
    (h : k ∈ m.map Prod.fst) :
    (mapSet m k v).map Prod.fst = m.map Prod.fst := by
  unfold mapSet
  rw [if_pos ((anyKey_iff m k).mpr h), List.map_map]
  refine List.map_congr_left ?_
  intro p _
  by_cases hp : p.1 = k
  · simp [hp]
  · simp [hp]

theorem mapSet_keys_of_not_mem (m : List (String × Row)) (k : String) (v : Row)
    (h : k ∉ m.map Prod.fst) :
    (mapSet m k v).map Prod.fst = m.map Prod.fst ++ [k] := by
  unfold mapSet
  rw [if_neg (fun hc => h ((anyKey_iff m k).mp hc))]
  simp

theorem mapSet_mem (m : List (String × Row)) (k : String) (v : Row) :
    ∀ p ∈ mapSet m k v, p ∈ m ∨ p = (k, v) := by
  unfold mapSet
  split
  · intro p hp
    rcases List.mem_map.mp hp with ⟨q, hq, he⟩
    by_cases hqk : q.1 = k
    · right; rw [← he]; simp [hqk]
    · left; rw [← he]; simp [hqk]; exact hq
  · intro p hp
    rcases List.mem_append.mp hp with h | h
    · exact Or.inl h
    · right; simpa using h

theorem mapSet_keys_mono (m : List (String × Row)) (k : String) (v : Row)
    (k' : String) (h : k' ∈ m.map Prod.fst) :
    k' ∈ (mapSet m k v).map Prod.fst := by
  by_cases hk : k ∈ m.map Prod.fst
  · rw [mapSet_keys_of_mem m k v hk]; exact h
  · rw [mapSet_keys_of_not_mem m k v hk]; exact List.mem_append_left _ h

theorem mapSet_key_self (m : List (String × Row)) (k : String) (v : Row) :
    k ∈ (mapSet m k v).map Prod.fst := by
  by_cases hk : k ∈ m.map Prod.fst
  · rw [mapSet_keys_of_mem m k v hk]; exact hk
  · rw [mapSet_keys_of_not_mem m k v hk]; simp

theorem mapSet_keys_nodup (m : List (String × Row)) (k : String) (v : Row)
    (h : (m.map Prod.fst).Nodup) : ((mapSet m k v).map Prod.fst).Nodup := by
  by_cases hk : k ∈ m.map Prod.fst
  · rw [mapSet_keys_of_mem m k v hk]; exact h
  · rw [mapSet_keys_of_not_mem m k v hk]
    rw [List.nodup_append]
    refine ⟨h, List.nodup_singleton k, ?_⟩
    intro a ha hb
    rw [List.mem_singleton] at hb
    subst hb
    exact hk ha

/-! ## Remote fold invariants -/

theorem remoteFold_inv (rows : List Row) :
    ∀ acc : List (String × Row),
      (acc.map Prod.fst).Nodup → (∀ p ∈ acc, historyKey p.2 = p.1) →
      (((rows.foldl remoteStep acc).map Prod.fst).Nodup ∧
        ∀ p ∈ rows.foldl remoteStep acc, historyKey p.2 = p.1) := by
  induction rows with
  | nil => intro acc h1 h2; exact ⟨h1, h2⟩
  | cons r rest ih =>
    intro acc h1 h2
    simp only [List.foldl_cons]
    refine ih (remoteStep acc r) (mapSet_keys_nodup _ _ _ h1) ?_
    intro p hp
    rcases mapSet_mem _ _ _ p hp with h | h
    · exact h2 p h
    · rw [h]

theorem remoteFold_values_mem (rows : List Row) :
    ∀ acc, ∀ p ∈ rows.foldl remoteStep acc, p ∈ acc ∨ p.2 ∈ rows := by
  induction rows with
  | nil => intro acc p hp; exact Or.inl hp
  | cons r rest ih =>
    intro acc p hp
    simp only [List.foldl_cons] at hp
    rcases ih (remoteStep acc r) p hp with h | h
    · rcases mapSet_mem _ _ _ p h with h2 | h2
      · exact Or.inl h2
      · right; rw [h2]; exact List.mem_cons_self r rest
    · exact Or.inr (List.mem_cons_of_mem r h)

theorem remoteFold_keys_mono (rows : List Row) :
    ∀ acc k', k' ∈ acc.map Prod.fst →
      k' ∈ (rows.foldl remoteStep acc).map Prod.fst := by
  induction rows with
  | nil => intro acc k' h; exact h
  | cons r rest ih =>
    intro acc k' h
    simp only [List.foldl_cons]
    exact ih _ k' (mapSet_keys_mono _ _ _ k' h)

theorem remoteFold_keys_superset (rows : List Row) :
    ∀ acc, ∀ b ∈ rows, historyKey b ∈ (rows.foldl remoteStep acc).map Prod.fst := by
  induction rows with
  | nil => intro acc b hb; simp at hb
  | cons r rest ih =>
    intro acc b hb
    simp only [List.foldl_cons]
    rcases List.mem_cons.mp hb with rfl | hb2
    · exact remoteFold_keys_mono rest _ _ (mapSet_key_self acc _ b)
    · exact ih _ b hb2

/-! ## Local fold invariants -/

theorem localFold_acc_sub (rows : List Row) :
    ∀ acc, ∀ p ∈ acc, p ∈ rows.foldl localStep acc := by
  induction rows with
  | nil => intro acc p hp; exact hp
  | cons r rest ih =>
    intro acc p hp
    simp only [List.foldl_cons]
    refine ih (localStep acc r) p ?_
    unfold localStep
    split
    · exact hp
    · exact List.mem_append_left _ hp

theorem localFold_inv (rows : List Row) :
    ∀ acc : List (String × Row),
      (acc.map Prod.fst).Nodup → (∀ p ∈ acc, historyKey p.2 = p.1) →
      (((rows.foldl localStep acc).map Prod.fst).Nodup ∧
        ∀ p ∈ rows.foldl localStep acc, historyKey p.2 = p.1) := by
  induction rows with
  | nil => intro acc h1 h2; exact ⟨h1, h2⟩
  | cons r rest ih =>
    intro acc h1 h2
    simp only [List.foldl_cons]
    unfold localStep
    split
    · exact ih acc h1 h2
    · rename_i hany
      refine ih _ ?_ ?_
      · have hk : historyKey r ∉ acc.map Prod.fst :=
          fun hc => hany ((anyKey_iff acc (historyKey r)).mpr hc)
        rw [List.map_append, List.nodup_append]
        refine ⟨h1, by simp, ?_⟩
        intro a ha hb
        simp at hb
        subst hb
        exact hk ha
      · intro p hp
        rcases List.mem_append.mp hp with h | h
        · exact h2 p h
        · simp at h; rw [h]

theorem localFold_noop (rows : List Row) :
    ∀ acc, (∀ r ∈ rows, historyKey r ∈ acc.map Prod.fst) →
      rows.foldl localStep acc = acc := by
  induction rows with
  | nil => intro acc _; rfl
  | cons r rest ih =>
    intro acc h
    simp only [List.foldl_cons]
    have hstep : localStep acc r = acc := by
      unfold localStep
      rw [if_pos ((anyKey_iff acc (historyKey r)).mpr (h r (List.mem_cons_self r rest)))]
    rw [hstep]
    exact ih acc (fun r' hr' => h r' (List.mem_cons_of_mem r hr'))

theorem localFold_mem (rows : List Row) :
    ∀ (acc : List (String × Row)) (ks : List String),
      (∀ k ∈ ks, k ∈ acc.map Prod.fst) →
      ∀ p ∈ rows.foldl localStep acc,
        p ∈ acc ∨ (p.2 ∈ rows ∧ p.1 = historyKey p.2 ∧ p.1 ∉ ks) := by
  induction rows with
  | nil => intro acc ks _ p hp; exact Or.inl hp
  | cons r rest ih =>
    intro acc ks hks p hp
    simp only [List.foldl_cons] at hp
    by_cases hany : acc.any (fun q => q.1 = historyKey r) = true
    · have hstep : localStep acc r = acc := by unfold localStep; rw [if_pos hany]
      rw [hstep] at hp
      rcases ih acc ks hks p hp with h | ⟨h1, h2, h3⟩
      · exact Or.inl h
      · exact Or.inr ⟨List.mem_cons_of_mem r h1, h2, h3⟩
    · have hstep : localStep acc r = acc ++ [(historyKey r, r)] := by
        unfold localStep; rw [if_neg hany]
      rw [hstep] at hp
      have hks2 : ∀ k ∈ ks, k ∈ (acc ++ [(historyKey r, r)]).map Prod.fst := by
        intro k hk
        rw [List.map_append]
        exact List.mem_append_left _ (hks k hk)
      rcases ih _ ks hks2 p hp with h | ⟨h1, h2, h3⟩
      · rcases List.mem_append.mp h with h2 | h2
        · exact Or.inl h2
        · simp at h2
          right
          refine ⟨?_, ?_, ?_⟩
          · rw [h2]; exact List.mem_cons_self r rest
          · rw [h2]
          · rw [h2]
            intro hc
            have : historyKey r ∈ acc.map Prod.fst := hks _ hc
            exact hany ((anyKey_iff acc (historyKey r)).mpr this)
      · exact Or.inr ⟨List.mem_cons_of_mem r h1, h2, h3⟩

/-- Folding rows whose keys are pairwise distinct and absent from the
accumulator just appends them in order. -/
theorem remoteFold_fresh (rows : List Row) :
    ∀ acc : List (String × Row),
      (∀ r ∈ rows, historyKey r ∉ acc.map Prod.fst) →
      (rows.map historyKey).Nodup →
      rows.foldl remoteStep acc = acc ++ rows.map (fun r => (historyKey r, r)) := by
  induction rows with
  | nil => intro acc _ _; simp
  | cons r rest ih =>
    intro acc hfresh hnd
    simp only [List.foldl_cons]
    have hstep : remoteStep acc r = acc ++ [(historyKey r, r)] := by
      unfold remoteStep mapSet
      rw [if_neg (fun hc =>
        hfresh r (List.mem_cons_self r rest) ((anyKey_iff acc (historyKey r)).mp hc))]
    rw [hstep]
    rw [List.map_cons, List.nodup_cons] at hnd
    obtain ⟨hr, hnd2⟩ := hnd
    rw [ih (acc ++ [(historyKey r, r)]) ?_ hnd2]
    · simp
    · intro r' hr'
      rw [List.map_append]
      intro hc
      rcases List.mem_append.mp hc with h | h
      · exact hfresh r' (List.mem_cons_of_mem r hr') h
      · simp at h
        exact hr (h ▸ List.mem_map_of_mem historyKey hr')

/-- `mergeHistory` unfolded to its two folds and final sort. -/
theorem mergeHistory_eq (localRows remoteRows : List Row) :
    mergeHistory localRows remoteRows =
      sortMerge ((localRows.foldl localStep
        (remoteRows.foldl remoteStep [])).map (fun p => p.2)) := rfl

/-- The output of `mergeHistory` has pairwise-distinct history keys and is
pairwise sorted. -/
theorem mergeHistory_keys_nodup (localRows remoteRows : List Row) :
    ((mergeHistory localRows remoteRows).map historyKey).Nodup := by
  obtain ⟨h1, h2⟩ := remoteFold_inv remoteRows [] (by simp) (by simp)
  obtain ⟨h3, h4⟩ := localFold_inv localRows _ h1 h2
  have hkeys : ((localRows.foldl localStep
      (remoteRows.foldl remoteStep [])).map (fun p => p.2)).map historyKey =
      (localRows.foldl localStep (remoteRows.foldl remoteStep [])).map Prod.fst := by
    rw [List.map_map]
    exact List.map_congr_left (fun p hp => h4 p hp)
  have hnd : (((localRows.foldl localStep
      (remoteRows.foldl remoteStep [])).map (fun p => p.2)).map historyKey).Nodup := by
    rw [hkeys]; exact h3
  rw [mergeHistory_eq]
  exact ((sortMerge_perm _).map historyKey).nodup_iff.mpr hnd

/-! ## Claim C6: merge idempotence -/

/-- C6: `mergeHistory` is idempotent: merging the result of any merge with
itself returns the same list of rows in the same order. -/
theorem mergeHistory_idempotent (localRows remoteRows : List Row) :
    mergeHistory (mergeHistory localRows remoteRows) (mergeHistory localRows remoteRows) =
      mergeHistory localRows remoteRows := by
  have hnd : ((mergeHistory localRows remoteRows).map historyKey).Nodup :=
    mergeHistory_keys_nodup localRows remoteRows
  have hsorted : List.Pairwise rowLe (mergeHistory localRows remoteRows) := by
    rw [mergeHistory_eq]
    exact sortMerge_pairwise _
  rw [mergeHistory_eq (mergeHistory localRows remoteRows)]
  rw [remoteFold_fresh _ [] (by simp) hnd]
  rw [List.nil_append]
  rw [localFold_noop _ _ ?_]
  · rw [List.map_map]
    have : ((fun p => p.2) ∘ fun r => (historyKey r, r)) = fun r : Row => r := rfl
    rw [this, List.map_id']
    exact sortMerge_of_pairwise _ hsorted
  · intro r hr
    rw [List.map_map]
    have : (Prod.fst ∘ fun r : Row => (historyKey r, r)) = historyKey := rfl
    rw [this]
    exact List.mem_map_of_mem historyKey hr

/-! ## Claim C5: merge semantics (corrected keying) -/

/-- Counterexample to C5 as stated: `mergeHistory` keys rows by the joined
string `participant_id::component::trial_id`, not by the tuple, so two
distinct tuples can collide.  With local = [a0] and remote = [a0, b0] where
a0 = (participant "x::y", component "z", trial 1) and
b0 = (participant "x", component "y::z", trial 1) share the joined string
"x::y::z::1", the tuple key of a0 is present in both inputs yet no row of
the merged output carries it. -/
theorem mergeHistory_tuple_cex :
    ¬ mergeKeyedByTuple
      [{ participant_id := "x::y", component := "z", trial_id := 1,
         left_method_id := "m1", right_method_id := "m2",
         preferred := some "left", resolved_preferred := some "left" }]
      [{ participant_id := "x::y", component := "z", trial_id := 1,
         left_method_id := "m1", right_method_id := "m2",
         preferred := some "left", resolved_preferred := some "left" },
       { participant_id := "x", component := "y::z", trial_id := 1,
         left_method_id := "m3", right_method_id := "m4",
         preferred := some "right", resolved_preferred := some "right" }] := by
  intro h
  have hx := h
    { participant_id := "x::y", component := "z", trial_id := 1,
      left_method_id := "m1", right_method_id := "m2",
      preferred := some "left", resolved_preferred := some "left" }
    (by simp)
    { participant_id := "x::y", component := "z", trial_id := 1,
      left_method_id := "m1", right_method_id := "m2",
      preferred := some "left", resolved_preferred := some "left" }
    (by simp) rfl
  revert hx
  decide

/-- C5 amended: `mergeHistory` keys each row by the joined string
`participant_id::component::trial_id` (which coincides with the tuple
whenever participant ids and components do not contain "::"): every merged
row is either a remote row or a local row whose string key occurs in no
remote row; for every string key present in both inputs the merged output
contains a remote row with that key; and the output is sorted by component
lexicographically ascending, then trial id numerically ascending. -/
theorem mergeHistory_spec (localRows remoteRows : List Row) :
    (∀ r ∈ mergeHistory localRows remoteRows,
      r ∈ remoteRows ∨
        (r ∈ localRows ∧ ∀ b ∈ remoteRows, historyKey b ≠ historyKey r)) ∧
    (∀ a ∈ localRows, ∀ b ∈ remoteRows, historyKey a = historyKey b →
      ∃ r ∈ mergeHistory localRows remoteRows,
        historyKey r = historyKey a ∧ r ∈ remoteRows) ∧
    List.Pairwise rowLe (mergeHistory localRows remoteRows) := by
  obtain ⟨hnd1, hkey1⟩ := remoteFold_inv remoteRows [] (by simp) (by simp)
  obtain ⟨hnd2, hkey2⟩ := localFold_inv localRows _ hnd1 hkey1
  refine ⟨?_, ?_, ?_⟩
  · intro r hr
    rw [mergeHistory_eq] at hr
    have hr2 : r ∈ (localRows.foldl localStep
        (remoteRows.foldl remoteStep [])).map (fun p => p.2) :=
      (sortMerge_perm _).mem_iff.mp hr
    rcases List.mem_map.mp hr2 with ⟨p, hp, hpr⟩
    have hks : ∀ k ∈ remoteRows.map historyKey,
        k ∈ (remoteRows.foldl remoteStep []).map Prod.fst := by
      intro k hk
      rcases List.mem_map.mp hk with ⟨b, hb, hbk⟩
      rw [← hbk]
      exact remoteFold_keys_superset remoteRows [] b hb
    rcases localFold_mem localRows _ (remoteRows.map historyKey) hks p hp with
      h | ⟨h1, h2, h3⟩
    · rcases remoteFold_values_mem remoteRows [] p h with h2 | h2
      · simp at h2
      · left; rw [← hpr]; exact h2
    · right
      refine ⟨by rw [← hpr]; exact h1, ?_⟩
      intro b hb hc
      apply h3
      rw [h2, hpr, ← hc]
      exact List.mem_map_of_mem historyKey hb
  · intro a _ b hb heq
    have hkb : historyKey b ∈ (remoteRows.foldl remoteStep []).map Prod.fst :=
      remoteFold_keys_superset remoteRows [] b hb
    rcases List.mem_map.mp hkb with ⟨p, hp, hpk⟩
    have hp2 : p ∈ localRows.foldl localStep (remoteRows.foldl remoteStep []) :=
      localFold_acc_sub localRows _ p hp
    refine ⟨p.2, ?_, ?_, ?_⟩
    · rw [mergeHistory_eq]
      exact (sortMerge_perm _).mem_iff.mpr (List.mem_map_of_mem (fun p => p.2) hp2)
    · rw [hkey2 p hp2, hpk, heq]
    · rcases remoteFold_values_mem remoteRows [] p hp with h | h
      · simp at h
      · exact h
  · rw [mergeHistory_eq]
    exact sortMerge_pairwise _

/-- Witness for the amended C5: local and remote share the key
(P1, cautions, 3) with different field values; the merged output contains
the remote version, and is sorted. -/
theorem mergeHistory_spec_witness :
    (∃ r ∈ mergeHistory
        [{ participant_id := "P1", component := "cautions", trial_id := 3,
           left_method_id := "A", right_method_id := "B",
           preferred := some "left", resolved_preferred := some "left" }]
        [{ participant_id := "P1", component := "cautions", trial_id := 3,
           left_method_id := "C", right_method_id := "D",
           preferred := some "right", resolved_preferred := some "right" }],
      historyKey r = historyKey
        { participant_id := "P1", component := "cautions", trial_id := 3,
          left_method_id := "A", right_method_id := "B",
          preferred := some "left", resolved_preferred := some "left" } ∧
      r ∈ [{ participant_id := "P1", component := "cautions", trial_id := 3,
             left_method_id := "C", right_method_id := "D",
             preferred := some "right", resolved_preferred := some "right" }]) ∧
    List.Pairwise rowLe (mergeHistory
      [{ participant_id := "P1", component := "cautions", trial_id := 3,
         left_method_id := "A", right_method_id := "B",
         preferred := some "left", resolved_preferred := some "left" }]
      [{ participant_id := "P1", component := "cautions", trial_id := 3,
         left_method_id := "C", right_method_id := "D",
         preferred := some "right", resolved_preferred := some "right" }]) :=
  ⟨(mergeHistory_spec
      [{ participant_id := "P1", component := "cautions", trial_id := 3,
         left_method_id := "A", right_method_id := "B",
         preferred := some "left", resolved_preferred := some "left" }]
      [{ participant_id := "P1", component := "cautions", trial_id := 3,
         left_method_id := "C", right_method_id := "D",
         preferred := some "right", resolved_preferred := some "right" }]).2.1
    { participant_id := "P1", component := "cautions", trial_id := 3,
      left_method_id := "A", right_method_id := "B",
      preferred := some "left", resolved_preferred := some "left" } (by simp)
    { participant_id := "P1", component := "cautions", trial_id := 3,
      left_method_id := "C", right_method_id := "D",
      preferred := some "right", resolved_preferred := some "right" } (by simp)
    (by decide),
   (mergeHistory_spec _ _).2.2⟩

/-! ## Lemmas about the appeared set -/

theorem addUnique_mem_iff (s : List String) (y x : String) :
    x ∈ addUnique s y ↔ x ∈ s ∨ x = y := by
  unfold addUnique
  by_cases h : s.contains y
  · rw [if_pos h]
    constructor
    · exact Or.inl
    · rintro (hx | rfl)
      · exact hx
      · simpa using h
  · rw [if_neg h]
    simp

theorem addUnique_of_mem {s : List String} {y : String} (h : y ∈ s) :
    addUnique s y = s := by
  unfold addUnique
  rw [if_pos (by simpa using h)]

theorem addUnique_of_not_mem {s : List String} {y : String} (h : y ∉ s) :
    addUnique s y = s ++ [y] := by
  unfold addUnique
  rw [if_neg (by simpa using h)]

theorem addUnique_nodup {s : List String} (y : String) (h : s.Nodup) :
    (addUnique s y).Nodup := by
  by_cases hy : y ∈ s
  · rw [addUnique_of_mem hy]; exact h
  · rw [addUnique_of_not_mem hy, List.nodup_append]
    refine ⟨h, List.nodup_singleton y, ?_⟩
    intro a ha hb
    rw [List.mem_singleton] at hb
    subst hb
    exact hy ha

theorem appearedOf_append (rows : List Row) (r : Row) :
    appearedOf (rows ++ [r]) = appearedStep (appearedOf rows) r := by
  unfold appearedOf
  rw [List.foldl_append]
  rfl

theorem appearedFold_mono (rows : List Row) :
    ∀ acc x, x ∈ acc → x ∈ rows.foldl appearedStep acc := by
  induction rows with
  | nil => intro acc x h; exact h
  | cons r rest ih =>
    intro acc x h
    simp only [List.foldl_cons]
    refine ih _ x ?_
    unfold appearedStep
    rw [addUnique_mem_iff, addUnique_mem_iff]
    exact Or.inl (Or.inl h)

theorem appeared_sides_mem (rows : List Row) :
    ∀ acc r, r ∈ rows →
      r.left_method_id ∈ rows.foldl appearedStep acc ∧
      r.right_method_id ∈ rows.foldl appearedStep acc := by
  induction rows with
  | nil => intro acc r h; simp at h
  | cons q rest ih =>
    intro acc r h
    simp only [List.foldl_cons]
    rcases List.mem_cons.mp h with rfl | h2
    · constructor
      · refine appearedFold_mono rest _ _ ?_
        unfold appearedStep
        rw [addUnique_mem_iff]
        exact Or.inl (by rw [addUnique_mem_iff]; exact Or.inr rfl)
      · refine appearedFold_mono rest _ _ ?_
        unfold appearedStep
        rw [addUnique_mem_iff]
        exact Or.inr rfl
    · exact ih _ r h2

theorem appearedFold_nodup (rows : List Row) :
    ∀ acc, acc.Nodup → (rows.foldl appearedStep acc).Nodup := by
  induction rows with
  | nil => intro acc h; exact h
  | cons r rest ih =>
    intro acc h
    simp only [List.foldl_cons]
    exact ih _ (addUnique_nodup _ (addUnique_nodup _ h))

theorem appearedFold_subset (rows : List Row) :
    ∀ acc x, x ∈ rows.foldl appearedStep acc →
      x ∈ acc ∨ ∃ r ∈ rows, x = r.left_method_id ∨ x = r.right_method_id := by
  induction rows with
  | nil => intro acc x h; exact Or.inl h
  | cons r rest ih =>
    intro acc x h
    simp only [List.foldl_cons] at h
    rcases ih _ x h with h2 | ⟨q, hq, hside⟩
    · unfold appearedStep at h2
      rw [addUnique_mem_iff, addUnique_mem_iff] at h2
      rcases h2 with (hacc | hleft) | hright
      · exact Or.inl hacc
      · exact Or.inr ⟨r, List.mem_cons_self r rest, Or.inl hleft⟩
      · exact Or.inr ⟨r, List.mem_cons_self r rest, Or.inr hright⟩
    · exact Or.inr ⟨q, List.mem_cons_of_mem r hq, hside⟩

/-! ## Sorting the filtered history is the identity on sorted input -/

theorem sortByTrial_of_pairwise (l : List Row)
    (h : List.Pairwise (fun a b => a.trial_id ≤ b.trial_id) l) :
    sortByTrial l = l := by
  induction l with
  | nil => rfl
  | cons x xs ih =>
    rcases List.pairwise_cons.mp h with ⟨hx, hxs⟩
    unfold sortByTrial
    rw [ih hxs]
    cases xs with
    | nil => rfl
    | cons y ys =>
      unfold insertByTrial
      rw [if_neg (Nat.not_lt.mpr (hx y (List.mem_cons_self y ys)))]

/-! ## Counting unseen methods -/

theorem length_filter_contains_split (ids : List String) (p : String → Bool) :
    (ids.filter p).length + (ids.filter (fun m => !p m)).length = ids.length := by
  induction ids with
  | nil => rfl
  | cons a t ih =>
    by_cases h : p a
    · simp [List.filter_cons, h]
      omega
    · simp [List.filter_cons, h]
      omega

theorem length_filter_contains {ids A : List String}
    (hnd : ids.Nodup) (hA : A.Nodup) (hsub : ∀ a ∈ A, a ∈ ids) :
    (ids.filter (fun m => A.contains m)).length = A.length := by
  have hndf : (ids.filter (fun m => A.contains m)).Nodup := hnd.filter _
  have hset : (ids.filter (fun m => A.contains m)).toFinset = A.toFinset := by
    ext x
    simp only [List.mem_toFinset, List.mem_filter]
    constructor
    · rintro ⟨-, hx⟩
      simpa using hx
    · intro hx
      exact ⟨hsub x hx, by simpa using hx⟩
  have h1 := List.toFinset_card_of_nodup hndf
  have h2 := List.toFinset_card_of_nodup hA
  rw [hset, h2] at h1
  exact h1.symm

theorem length_filter_not_contains {ids A : List String}
    (hnd : ids.Nodup) (hA : A.Nodup) (hsub : ∀ a ∈ A, a ∈ ids) :
    (ids.filter (fun m => !A.contains m)).length = ids.length - A.length := by
  have hsplit := length_filter_contains_split ids (fun m => A.contains m)
  rw [length_filter_contains hnd hA hsub] at hsplit
  omega

/-! ## The champion is one of the last row's two sides -/

theorem championOf_side (pid component : String) (last : Row) :
    championOf pid component last = last.left_method_id ∨
      championOf pid component last = last.right_method_id := by
  unfold championOf
  dsimp only
  split
  · exact Or.inl rfl
  · split
    · exact Or.inr rfl
    · split
      · cases resolveTiePreferred pid component last.trial_id last.left_method_id
          last.right_method_id
        · exact Or.inl rfl
        · exact Or.inr rfl
      · exact Or.inl rfl

/-- Helper: the bootstrap evaluation of `nextPair` when the filtered
history is empty. -/
theorem nextPair_no_history (pid component : String) (methodIds : List String)
    (history : List Row)
    (h1 : ¬ pid = "") (h2 : 2 ≤ methodIds.length)
    (h3 : history.filter (rowMatches pid component) = []) :
    nextPair pid component methodIds history =
      some ((stableShuffle methodIds (pid ++ "::" ++ component)).getD 0 "",
            (stableShuffle methodIds (pid ++ "::" ++ component)).getD 1 "") := by
  unfold nextPair
  rw [if_neg (by push_neg; exact ⟨h1, h2⟩), h3]
  rfl

/-! ## Steady-state evaluation of `nextPair` -/

theorem two_le_length_exists {α : Type} (l : List α) (h : 2 ≤ l.length) :
    ∃ a b t, l = a :: b :: t := by
  cases l with
  | nil => simp at h
  | cons a t =>
    cases t with
    | nil => simp at h
    | cons b t2 => exact ⟨a, b, t2, rfl⟩

theorem nextPair_steady (pid component : String) (ids : List String)
    (hist rows : List Row) (last : Row)
    (hpid : ¬ pid = "") (hlen : 2 ≤ ids.length) (hnd : ids.Nodup)
    (hfilt : hist.filter (rowMatches pid component) = rows)
    (hsorted : sortByTrial rows = rows)
    (hlast : rows.getLast? = some last)
    (hAnd : (appearedOf rows).Nodup)
    (hAsub : ∀ m ∈ appearedOf rows, m ∈ ids)
    (hchamp : championOf pid component last ∈ appearedOf rows) :
    ((appearedOf rows).length < ids.length →
      ∃ c, nextPair pid component ids hist =
          some (championOf pid component last, c) ∧ c ∈ ids ∧ c ∉ appearedOf rows) ∧
    ((appearedOf rows).length = ids.length →
      nextPair pid component ids hist = none) := by
  have hcongr : ids.filter (fun m => !(appearedOf rows).contains m &&
      decide (m ≠ championOf pid component last)) =
      ids.filter (fun m => !(appearedOf rows).contains m) := by
    refine List.filter_congr ?_
    intro m _
    by_cases hmc : m = championOf pid component last
    · subst hmc
      have hc : (appearedOf rows).contains (championOf pid component last) = true := by
        simpa using hchamp
      rw [hc]
      rfl
    · have hd : decide (m ≠ championOf pid component last) = true := by simpa using hmc
      rw [hd, Bool.and_true]
  have hflen : (ids.filter (fun m => !(appearedOf rows).contains m)).length =
      ids.length - (appearedOf rows).length :=
    length_filter_not_contains hnd hAnd hAsub
  unfold nextPair
  rw [if_neg (by push_neg; exact ⟨hpid, hlen⟩), hfilt, hsorted]
  dsimp only
  rw [hlast]
  dsimp only
  rw [hcongr]
  constructor
  · intro hlt
    rw [if_neg (by omega)]
    refine ⟨(ids.filter (fun m => !(appearedOf rows).contains m)).getD
      ((mulberry32Next (hash32 (pid ++ "::" ++ component ++ "::" ++
        natToString (appearedOf rows).length))).2 *
        (ids.filter (fun m => !(appearedOf rows).contains m)).length / U32) "", rfl, ?_, ?_⟩
    · have hpos : 0 < (ids.filter (fun m => !(appearedOf rows).contains m)).length := by
        omega
      have hidx := draw_index_lt (t := (mulberry32Next (hash32 (pid ++ "::" ++ component
        ++ "::" ++ natToString (appearedOf rows).length))).2)
        (mulberry32Next_snd_lt _) hpos
      have hmem := getD_mem _ _ "" hidx
      exact (List.mem_filter.mp hmem).1
    · have hpos : 0 < (ids.filter (fun m => !(appearedOf rows).contains m)).length := by
        omega
      have hidx := draw_index_lt (t := (mulberry32Next (hash32 (pid ++ "::" ++ component
        ++ "::" ++ natToString (appearedOf rows).length))).2)
        (mulberry32Next_snd_lt _) hpos
      have hmem := getD_mem _ _ "" hidx
      have hb := (List.mem_filter.mp hmem).2
      simpa using hb
  · intro heq
    rw [if_pos (by omega)]

/-! ## The tournament run -/

theorem runTournament_zero (pid component : String) (ids : List String)
    (w : Nat → Side) (h0 : List Row) :
    runTournament pid component ids w h0 0 = h0 := rfl

theorem runTournament_succ (pid component : String) (ids : List String)
    (w : Nat → Side) (h0 : List Row) (k : Nat) :
    runTournament pid component ids w h0 (k + 1) =
      match nextPair pid component ids (runTournament pid component ids w h0 k) with
      | none => runTournament pid component ids w h0 k
      | some (a, b) => runTournament pid component ids w h0 k ++
          [mkRow pid component (k + 1) a b (w k)] := rfl

theorem rowMatches_mkRow (pid component : String) (t : Nat) (a b : String) (w : Side) :
    rowMatches pid component (mkRow pid component t a b w) = true := by
  simp [rowMatches, mkRow]

theorem appearedOf_sides_mem (rows : List Row) (r : Row) (hr : r ∈ rows) :
    r.left_method_id ∈ appearedOf rows ∧ r.right_method_id ∈ appearedOf rows :=
  appeared_sides_mem rows [] r hr

theorem run_invariant (pid component : String) (ids : List String) (w : Nat → Side)
    (h0 : List Row)
    (hpid : ¬ pid = "") (hlen : 2 ≤ ids.length) (hnd : ids.Nodup)
    (hbase : h0.filter (rowMatches pid component) = []) :
    ∀ k, k + 1 ≤ ids.length →
      (∀ r ∈ runFiltered pid component ids w h0 k, r.trial_id ≤ k) ∧
      List.Pairwise (fun a b => a.trial_id ≤ b.trial_id)
        (runFiltered pid component ids w h0 k) ∧
      (k = 0 → runFiltered pid component ids w h0 k = []) ∧
      (1 ≤ k → runFiltered pid component ids w h0 k ≠ [] ∧
        (appearedOf (runFiltered pid component ids w h0 k)).Nodup ∧
        (∀ m ∈ appearedOf (runFiltered pid component ids w h0 k), m ∈ ids) ∧
        (appearedOf (runFiltered pid component ids w h0 k)).length = k + 1) := by
  intro k
  induction k with
  | zero =>
    intro _
    have h0eq : runFiltered pid component ids w h0 0 = [] := hbase
    rw [h0eq]
    exact ⟨by simp, List.Pairwise.nil, fun _ => rfl, by omega⟩
  | succ k ih =>
    intro hk
    obtain ⟨ihbound, ihsort, ihzero, ihpos⟩ := ih (by omega)
    by_cases hk0 : k = 0
    · subst hk0
      have hfilt0 : (runTournament pid component ids w h0 0).filter
          (rowMatches pid component) = [] := hbase
      have hnp := nextPair_no_history pid component ids
        (runTournament pid component ids w h0 0) hpid hlen hfilt0
      obtain ⟨a, b, t, hS⟩ := two_le_length_exists
        (stableShuffle ids (pid ++ "::" ++ component))
        (by rw [stableShuffle_length]; exact hlen)
      have hSnd : (stableShuffle ids (pid ++ "::" ++ component)).Nodup :=
        stableShuffle_nodup hnd _
      rw [hS] at hSnd
      have hab : a ≠ b := by
        rcases List.nodup_cons.mp hSnd with ⟨ha, -⟩
        intro hc
        exact ha (hc ▸ List.mem_cons_self b t)
      have haids : a ∈ ids := stableShuffle_mem _
        (by rw [hS]; exact List.mem_cons_self a _)
      have hbids : b ∈ ids := stableShuffle_mem _
        (by rw [hS]; exact List.mem_cons_of_mem a (List.mem_cons_self b t))
      have hget0 : (stableShuffle ids (pid ++ "::" ++ component)).getD 0 "" = a := by
        rw [hS]; rfl
      have hget1 : (stableShuffle ids (pid ++ "::" ++ component)).getD 1 "" = b := by
        rw [hS]; rfl
      rw [hget0, hget1] at hnp
      have hrun : runTournament pid component ids w h0 1 =
          runTournament pid component ids w h0 0 ++
            [mkRow pid component 1 a b (w 0)] := by
        rw [runTournament_succ, hnp]
      have hrf : runFiltered pid component ids w h0 1 =
          [mkRow pid component 1 a b (w 0)] := by
        unfold runFiltered
        rw [hrun, List.filter_append, hfilt0]
        simp [rowMatches_mkRow]
      have happ : appearedOf (runFiltered pid component ids w h0 1) = [a, b] := by
        rw [hrf]
        show appearedStep [] (mkRow pid component 1 a b (w 0)) = [a, b]
        unfold appearedStep
        have h1 : (mkRow pid component 1 a b (w 0)).left_method_id = a := rfl
        have h2 : (mkRow pid component 1 a b (w 0)).right_method_id = b := rfl
        rw [h1, h2, addUnique_of_not_mem (List.not_mem_nil a),
          addUnique_of_not_mem ?_]
        · rfl
        · intro hc
          simp at hc
          exact hab hc.symm
      refine ⟨?_, ?_, by omega, fun _ => ⟨?_, ?_, ?_, ?_⟩⟩
      · rw [hrf]
        intro r hr
        simp at hr
        rw [hr]
        rfl
      · rw [hrf]
        simp
      · rw [hrf]
        simp
      · rw [happ]
        simp [hab]
      · rw [happ]
        intro m hm
        rcases List.mem_cons.mp hm with rfl | hm2
        · exact haids
        · rcases List.mem_cons.mp hm2 with rfl | hm3
          · exact hbids
          · simp at hm3
      · rw [happ]
        rfl
    · obtain ⟨hne, hAnd, hAsub, hAlen⟩ := ihpos (by omega)
      have hlast := List.getLast?_eq_getLast
        (runFiltered pid component ids w h0 k) hne
      have hlastmem := List.getLast_mem hne
      have hchampside := championOf_side pid component
        ((runFiltered pid component ids w h0 k).getLast hne)
      have hchamp : championOf pid component
          ((runFiltered pid component ids w h0 k).getLast hne) ∈
            appearedOf (runFiltered pid component ids w h0 k) := by
        rcases hchampside with h | h
        · rw [h]
          exact (appearedOf_sides_mem _ _ hlastmem).1
        · rw [h]
          exact (appearedOf_sides_mem _ _ hlastmem).2
      have hsteady := nextPair_steady pid component ids
        (runTournament pid component ids w h0 k)
        (runFiltered pid component ids w h0 k)
        ((runFiltered pid component ids w h0 k).getLast hne)
        hpid hlen hnd rfl
        (sortByTrial_of_pairwise _ ihsort) hlast hAnd hAsub hchamp
      obtain ⟨c, hnp, hcids, hcnotA⟩ := hsteady.1 (by omega)
      have hrun : runTournament pid component ids w h0 (k + 1) =
          runTournament pid component ids w h0 k ++
            [mkRow pid component (k + 1)
              (championOf pid component
                ((runFiltered pid component ids w h0 k).getLast hne)) c (w k)] := by
        rw [runTournament_succ, hnp]
      have hrf : runFiltered pid component ids w h0 (k + 1) =
          runFiltered pid component ids w h0 k ++
            [mkRow pid component (k + 1)
              (championOf pid component
                ((runFiltered pid component ids w h0 k).getLast hne)) c (w k)] := by
        have hrfdef : runFiltered pid component ids w h0 (k + 1) =
            (runTournament pid component ids w h0 (k + 1)).filter
              (rowMatches pid component) := rfl
        have hfilteq : (runTournament pid component ids w h0 k).filter
            (rowMatches pid component) = runFiltered pid component ids w h0 k := rfl
        rw [hrfdef, hrun, List.filter_append, hfilteq]
        simp only [List.filter_cons, List.filter_nil, rowMatches_mkRow, if_true]
      have happ : appearedOf (runFiltered pid component ids w h0 (k + 1)) =
          appearedOf (runFiltered pid component ids w h0 k) ++ [c] := by
        rw [hrf, appearedOf_append]
        unfold appearedStep
        have h1 : (mkRow pid component (k + 1)
            (championOf pid component
              ((runFiltered pid component ids w h0 k).getLast hne)) c (w k)).left_method_id =
            championOf pid component
              ((runFiltered pid component ids w h0 k).getLast hne) := rfl
        have h2 : (mkRow pid component (k + 1)
            (championOf pid component
              ((runFiltered pid component ids w h0 k).getLast hne)) c (w k)).right_method_id =
            c := rfl
        rw [h1, h2, addUnique_of_mem hchamp, addUnique_of_not_mem hcnotA]
      refine ⟨?_, ?_, by omega, fun _ => ⟨?_, ?_, ?_, ?_⟩⟩
      · rw [hrf]
        intro r hr
        rcases List.mem_append.mp hr with h | h
        · exact Nat.le_succ_of_le (ihbound r h)
        · simp at h
          rw [h]
          rfl
      · rw [hrf, List.pairwise_append]
        refine ⟨ihsort, by simp, ?_⟩
        intro x hx y hy
        simp at hy
        rw [hy]
        have : (mkRow pid component (k + 1)
            (championOf pid component
              ((runFiltered pid component ids w h0 k).getLast hne)) c (w k)).trial_id =
            k + 1 := rfl
        rw [this]
        exact Nat.le_succ_of_le (ihbound x hx)
      · rw [hrf]
        simp
      · rw [happ, List.nodup_append]
        refine ⟨hAnd, by simp, ?_⟩
        intro x hx hy
        rw [List.mem_singleton] at hy
        subst hy
        exact hcnotA hx
      · rw [happ]
        intro m hm
        rcases List.mem_append.mp hm with h | h
        · exact hAsub m h
        · rw [List.mem_singleton] at h
          rw [h]
          exact hcids
      · rw [happ, List.length_append, hAlen]
        rfl

/-! ## Claim C1: tournament length -/

/-- C1: for every non-empty participant id, component, list of N ≥ 2
distinct eligible method ids and any choice of winners, the tournament
driven by `nextPair` — starting from any history with no rows for this
participant and component, and after each non-null result appending a vote
row for the returned pair whose resolved outcome names one of its two
methods as winner — returns a non-null pair on each of the first N - 1
calls and returns null on call N. -/
theorem tournament_length (pid component : String) (ids : List String)
    (w : Nat → Side) (h0 : List Row)
    (hpid : ¬ pid = "") (hlen : 2 ≤ ids.length) (hnd : ids.Nodup)
    (hbase : ∀ r ∈ h0, rowMatches pid component r = false) :
    (∀ k, k < ids.length - 1 →
      (nextPair pid component ids
        (runTournament pid component ids w h0 k)).isSome = true) ∧
    nextPair pid component ids
      (runTournament pid component ids w h0 (ids.length - 1)) = none := by
  have hbase' : h0.filter (rowMatches pid component) = [] :=
    List.filter_eq_nil_iff.mpr (fun r hr => by simp [hbase r hr])
  constructor
  · intro k hk
    by_cases hk0 : k = 0
    · subst hk0
      rw [runTournament_zero]
      rw [nextPair_no_history pid component ids h0 hpid hlen hbase']
      rfl
    · obtain ⟨-, hsort, -, ihpos⟩ :=
        run_invariant pid component ids w h0 hpid hlen hnd hbase' k (by omega)
      obtain ⟨hne, hAnd, hAsub, hAlen⟩ := ihpos (by omega)
      have hlast := List.getLast?_eq_getLast
        (runFiltered pid component ids w h0 k) hne
      have hlastmem := List.getLast_mem hne
      have hchamp : championOf pid component
          ((runFiltered pid component ids w h0 k).getLast hne) ∈
            appearedOf (runFiltered pid component ids w h0 k) := by
        rcases championOf_side pid component
            ((runFiltered pid component ids w h0 k).getLast hne) with h | h
        · rw [h]
          exact (appearedOf_sides_mem _ _ hlastmem).1
        · rw [h]
          exact (appearedOf_sides_mem _ _ hlastmem).2
      have hsteady := nextPair_steady pid component ids
        (runTournament pid component ids w h0 k)
        (runFiltered pid component ids w h0 k)
        ((runFiltered pid component ids w h0 k).getLast hne)
        hpid hlen hnd rfl
        (sortByTrial_of_pairwise _ hsort) hlast hAnd hAsub hchamp
      obtain ⟨c, hnp, -, -⟩ := hsteady.1 (by rw [hAlen]; omega)
      rw [hnp]
      rfl
  · obtain ⟨-, hsort, -, ihpos⟩ :=
      run_invariant pid component ids w h0 hpid hlen hnd hbase'
        (ids.length - 1) (by omega)
    obtain ⟨hne, hAnd, hAsub, hAlen⟩ := ihpos (by omega)
    have hlast := List.getLast?_eq_getLast
      (runFiltered pid component ids w h0 (ids.length - 1)) hne
    have hlastmem := List.getLast_mem hne
    have hchamp : championOf pid component
        ((runFiltered pid component ids w h0 (ids.length - 1)).getLast hne) ∈
          appearedOf (runFiltered pid component ids w h0 (ids.length - 1)) := by
      rcases championOf_side pid component
          ((runFiltered pid component ids w h0 (ids.length - 1)).getLast hne) with h | h
      · rw [h]
        exact (appearedOf_sides_mem _ _ hlastmem).1
      · rw [h]
        exact (appearedOf_sides_mem _ _ hlastmem).2
    have hsteady := nextPair_steady pid component ids
      (runTournament pid component ids w h0 (ids.length - 1))
      (runFiltered pid component ids w h0 (ids.length - 1))
      ((runFiltered pid component ids w h0 (ids.length - 1)).getLast hne)
      hpid hlen hnd rfl
      (sortByTrial_of_pairwise _ hsort) hlast hAnd hAsub hchamp
    exact hsteady.2 (by rw [hAlen]; omega)

/-- Witness for C1 with two methods: the first call yields a pair, the
second call (call N = 2) yields null. -/
theorem tournament_length_witness :
    (nextPair "P00001" "c" ["A", "B"]
      (runTournament "P00001" "c" ["A", "B"] (fun _ => Side.left) [] 0)).isSome = true ∧
    nextPair "P00001" "c" ["A", "B"]
      (runTournament "P00001" "c" ["A", "B"] (fun _ => Side.left) [] 1) = none :=
  ⟨(tournament_length "P00001" "c" ["A", "B"] (fun _ => Side.left) []
      (by decide) (by decide) (by decide) (by simp)).1 0 (by decide),
   (tournament_length "P00001" "c" ["A", "B"] (fun _ => Side.left) []
      (by decide) (by decide) (by decide) (by simp)).2⟩
